import Mathlib

/-!
Verification of the OpenThread multiplexed timer service and owning list
(`src/core/common/timer.hpp`, `src/core/common/owning_list.hpp`) against their
natural-language specification.

Times are 32-bit wrapping counters; we embed them as `Nat` and apply `% 2^32`
wherever the C++ `uint32_t` arithmetic wraps.  Comparisons between times are
wraparound-safe: each value is converted to a signed offset from a reference
point, and offsets are compared as signed 32-bit quantities.
-/

namespace OtTimer

/-- Width of the time counter: `2^32`, the number of values of `uint32_t`. -/
def timeWidth : Nat := 4294967296

/-- Half the counter range: `2^31`, the signed-interpretation cut. -/
def timeHalf : Nat := 2147483648

/-- Modelled from the spec: `Time::kMaxDuration`, the maximum representable
duration of the 32-bit wrapping tick counter (`time.hpp` is not in the
excerpt); it is the largest `uint32_t` value. -/
def kMaxDuration : Nat := timeWidth - 1

/-- From `timer.hpp`: `static const uint32_t kMaxDelay = (Time::kMaxDuration >> 1)`. -/
def kMaxDelay : Nat := kMaxDuration >>> 1

/-- The value `(t - now) mod 2^32`: the unsigned offset of time `t` from the
reference time `now`. -/
def offsetFrom (now t : Nat) : Nat :=
  (t % timeWidth + (timeWidth - now % timeWidth)) % timeWidth

/-- Modelled from the spec: the signed offset of time `t` from reference `now`
(`value - now` interpreted as a signed quantity of the same bit width). -/
def signedOffset (now t : Nat) : Int :=
  if offsetFrom now t < timeHalf then (offsetFrom now t : Int)
  else (offsetFrom now t : Int) - (timeWidth : Int)

/-- Modelled from the spec: the wraparound comparator relative to a reference
`now`; time `a` fires before time `b` when its signed offset from `now` is
smaller (`Timer::DoesFireBefore`, whose body is not in the excerpt). -/
def fireBefore (now a b : Nat) : Prop := signedOffset now a < signedOffset now b

instance (now a b : Nat) : Decidable (fireBefore now a b) :=
  inferInstanceAs (Decidable (signedOffset now a < signedOffset now b))

/-- Modelled from the spec: the two-value wraparound comparator (`Time`
`operator<`, `time.hpp` not in the excerpt): `a` is earlier than `b` when the
signed offset of `a` from `b` is negative. -/
def serialLt (a b : Nat) : Prop := signedOffset b a < 0

instance (a b : Nat) : Decidable (serialLt a b) :=
  inferInstanceAs (Decidable (signedOffset b a < 0))

/-- Modelled from the spec: the "distant future" sentinel relative to a given
`now`, the farthest time in the future under the wraparound comparator. -/
def distantFuture (now : Nat) : Nat := (now + timeHalf) % timeWidth

/-- `NextFireTime` (`timer.hpp`): a fixed `now` snapshot and a tracked next
fire time, initialized to the distant-future sentinel. -/
structure NextFireTime where
  mNow : Nat
  mNextTime : Nat
  deriving DecidableEq, Repr

/-- Constructor of `NextFireTime`: next time starts at the sentinel. -/
def NextFireTime.init (now : Nat) : NextFireTime :=
  { mNow := now, mNextTime := distantFuture now }

/-- From `timer.hpp`: `GetNow`. -/
def NextFireTime.getNow (f : NextFireTime) : Nat := f.mNow

/-- From `timer.hpp`: `GetNextTime`. -/
def NextFireTime.getNextTime (f : NextFireTime) : Nat := f.mNextTime

/-- From `timer.hpp`: `IsSet() { return (mNextTime != mNow.GetDistantFuture()); }`. -/
def NextFireTime.isSet (f : NextFireTime) : Prop := f.mNextTime ≠ distantFuture f.mNow

instance (f : NextFireTime) : Decidable f.isSet :=
  inferInstanceAs (Decidable (f.mNextTime ≠ distantFuture f.mNow))

/-- Modelled from the spec: `NextFireTime::UpdateIfEarlier` (body in
`timer.cpp`, not in the excerpt): candidate is `max(aTime, now)` under the
wraparound comparator, adopted when earlier than the tracked next time. -/
def NextFireTime.updateIfEarlier (f : NextFireTime) (t : Nat) : NextFireTime :=
  let candidate := if serialLt t f.mNow then f.mNow else t
  if serialLt candidate f.mNextTime then { f with mNextTime := candidate } else f

/-- Modelled from the spec: `NextFireTime::UpdateIfEarlierAndInFuture` (body in
`timer.cpp`, not in the excerpt): a time not strictly after `now` is ignored
entirely; otherwise behaves like `updateIfEarlier`. -/
def NextFireTime.updateIfEarlierAndInFuture (f : NextFireTime) (t : Nat) : NextFireTime :=
  if serialLt f.mNow t then f.updateIfEarlier t else f

/-- C2: the maximum delay accepted by delay-accepting timer operations,
`Timer::kMaxDelay`, equals half the maximum representable duration:
`kMaxDelay = kMaxDuration / 2` with integer division. -/
theorem kMaxDelay_eq_half_kMaxDuration : kMaxDelay = kMaxDuration / 2 := by
  decide

/-- C5: `UpdateIfEarlier(t)` computes the candidate `max(t, now)` (a time
strictly before `now` collapses to `now`, and a time at `now` is `now` itself)
and adopts it as the tracked next time exactly when it is earlier than the
currently tracked next time; with `now = 1000`, `UpdateIfEarlier(500)` yields
tracked next time 1000 and a subsequent `UpdateIfEarlier(2000)` leaves it
at 1000. -/
theorem updateIfEarlier_spec :
    (∀ (f : NextFireTime) (t : Nat), ∃ cand,
      (serialLt t f.mNow → cand = f.mNow)
      ∧ (¬ serialLt t f.mNow → cand = t)
      ∧ (serialLt cand f.mNextTime → f.updateIfEarlier t = { f with mNextTime := cand })
      ∧ (¬ serialLt cand f.mNextTime → f.updateIfEarlier t = f))
    ∧ ((NextFireTime.init 1000).updateIfEarlier 500).getNextTime = 1000
    ∧ (((NextFireTime.init 1000).updateIfEarlier 500).updateIfEarlier 2000).getNextTime = 1000 := by
  refine ⟨?_, by decide, by decide⟩
  intro f t
  refine ⟨if serialLt t f.mNow then f.mNow else t, ?_, ?_, ?_, ?_⟩
  · intro h; simp [if_pos h]
  · intro h; simp [if_neg h]
  · intro h
    unfold NextFireTime.updateIfEarlier
    simp only []
    rw [if_pos h]
  · intro h
    unfold NextFireTime.updateIfEarlier
    simp only []
    rw [if_neg h]

/-- Witness for C5: instantiating the general clause at the aggregator with
`now = 1000` and candidate time 500 recovers the clamping example. -/
theorem updateIfEarlier_spec_witness :
    ((NextFireTime.init 1000).updateIfEarlier 500).getNextTime = 1000 := by
  obtain ⟨cand, hlt, _, hadopt, _⟩ := updateIfEarlier_spec.1 (NextFireTime.init 1000) 500
  have hc : cand = 1000 := hlt (by decide)
  rw [hc] at hadopt
  rw [hadopt (by decide)]
  rfl

/-- C6: `UpdateIfEarlierAndInFuture(t)` ignores `t` entirely (the aggregator
state is unchanged) when `t` is not strictly after `now`, and otherwise behaves
like `UpdateIfEarlier`; with `now = 1000`, `UpdateIfEarlierAndInFuture(500)`
leaves `IsSet()` false, `UpdateIfEarlierAndInFuture(1500)` sets the next time
to 1500, and a subsequent `UpdateIfEarlierAndInFuture(1200)` lowers it
to 1200. -/
theorem updateIfEarlierAndInFuture_spec :
    (∀ (f : NextFireTime) (t : Nat),
      (¬ serialLt f.mNow t → f.updateIfEarlierAndInFuture t = f)
      ∧ (serialLt f.mNow t → f.updateIfEarlierAndInFuture t = f.updateIfEarlier t))
    ∧ ¬ ((NextFireTime.init 1000).updateIfEarlierAndInFuture 500).isSet
    ∧ ((NextFireTime.init 1000).updateIfEarlierAndInFuture 1500).getNextTime = 1500
    ∧ (((NextFireTime.init 1000).updateIfEarlierAndInFuture 1500).updateIfEarlierAndInFuture
        1200).getNextTime = 1200 := by
  refine ⟨?_, by decide, by decide, by decide⟩
  intro f t
  constructor
  · intro h
    unfold NextFireTime.updateIfEarlierAndInFuture
    rw [if_neg h]
  · intro h
    unfold NextFireTime.updateIfEarlierAndInFuture
    rw [if_pos h]

/-- Witness for C6: instantiating the general clause at the aggregator with
`now = 1000` and a past time 500 shows the update is ignored. -/
theorem updateIfEarlierAndInFuture_spec_witness :
    (NextFireTime.init 1000).updateIfEarlierAndInFuture 500 = NextFireTime.init 1000 :=
  (updateIfEarlierAndInFuture_spec.1 (NextFireTime.init 1000) 500).1 (by decide)

end OtTimer

namespace OtOwningList

/-- Modelled from the spec: `LinkedList::Pop` (`linked_list.hpp` is not in the
excerpt) removes the head entry and returns it; `OwningList::Pop` wraps the
result in an `OwnedPtr`, which we model as an `Option` (a null handle is
`none`). The pair is (popped handle, remaining list). -/
def pop {α : Type} (l : List α) : Option α × List α :=
  match l with
  | [] => (none, [])
  | x :: xs => (some x, xs)

/-- Modelled from the spec: `LinkedList::RemoveAllMatching` (`linked_list.hpp`
is not in the excerpt) partitions the list in one pass: matching elements move,
preserving relative order, into the destination list; non-matching elements
remain in place keeping their relative order.  The pair is (remaining list,
destination list). -/
def removeAllMatching {α : Type} (p : α → Bool) (l removedList : List α) : List α × List α :=
  (l.filter (fun x => !(p x)), removedList ++ l.filter p)

/-- From `owning_list.hpp`: `RemoveAndFreeAllMatching` moves all matches into a
transient list that is destroyed immediately and reports whether that transient
list is non-empty.  The pair is (remaining list, whether any were removed). -/
def removeAndFreeAllMatching {α : Type} (p : α → Bool) (l : List α) : List α × Bool :=
  let result := removeAllMatching p l []
  (result.1, !result.2.isEmpty)

/-- C7: `Pop()` removes the head element and returns it as an owning handle,
returning a null handle exactly when the list was empty; once a non-empty
handle is returned, the popped object no longer appears in the list under any
subsequent scan (the list holds each object at most once, per the single-owner
invariant, stated here as the `Nodup` hypothesis). -/
theorem pop_spec :
    ∀ (α : Type) (l : List α),
      ((pop l).1 = none ↔ l = [])
      ∧ (∀ x, (pop l).1 = some x → l.Nodup → ¬ x ∈ (pop l).2) := by
  intro α l
  cases l with
  | nil =>
      refine ⟨by simp [pop], ?_⟩
      intro x hx
      simp [pop] at hx
  | cons a as =>
      refine ⟨by simp [pop], ?_⟩
      intro x hx hnd
      simp only [pop] at hx ⊢
      cases hx
      exact (List.nodup_cons.mp hnd).1

/-- Witness for C7: popping the head of `[1, 2, 3]` yields an object absent
from the remaining list. -/
theorem pop_spec_witness : ¬ (1 : Nat) ∈ (pop [1, 2, 3]).2 :=
  (pop_spec Nat [1, 2, 3]).2 1 rfl (by decide)

/-- C8: `RemoveAndFreeAllMatching` removes exactly the matching elements
(non-matching elements stay in the list, and everything left is a non-matching
element of the original list) and returns true iff at least one matching entry
was removed; on a list of three entries of which two match key 7, it returns
true and leaves one entry, and the repeat call returns false. -/
theorem removeAndFreeAllMatching_spec :
    (∀ (α : Type) (p : α → Bool) (l : List α),
      ((removeAndFreeAllMatching p l).2 = true ↔ ∃ x, x ∈ l ∧ p x = true)
      ∧ (∀ x, x ∈ l → p x = false → x ∈ (removeAndFreeAllMatching p l).1)
      ∧ (∀ x, x ∈ (removeAndFreeAllMatching p l).1 → x ∈ l ∧ p x = false))
    ∧ removeAndFreeAllMatching (fun e => e.2 == 7) [(1, 7), (2, 5), (3, 7)] = ([(2, 5)], true)
    ∧ removeAndFreeAllMatching (fun e => e.2 == 7) [((2 : Nat), (5 : Nat))] = ([(2, 5)], false) := by
  refine ⟨?_, by decide, by decide⟩
  intro α p l
  refine ⟨?_, ?_, ?_⟩
  · constructor
    · intro h
      by_cases hnil : l.filter p = []
      · exfalso
        simp [removeAndFreeAllMatching, removeAllMatching, hnil] at h
      · rcases List.exists_mem_of_ne_nil _ hnil with ⟨x, hx⟩
        exact ⟨x, (List.mem_filter.mp hx).1, (List.mem_filter.mp hx).2⟩
    · rintro ⟨x, hxl, hpx⟩
      have hx : x ∈ l.filter p := List.mem_filter.mpr ⟨hxl, hpx⟩
      have hne : l.filter p ≠ [] := by
        intro hnil
        rw [hnil] at hx
        exact (List.not_mem_nil x) hx
      simp [removeAndFreeAllMatching, removeAllMatching, List.isEmpty_iff, hne]
  · intro x hxl hpx
    simp only [removeAndFreeAllMatching, removeAllMatching]
    exact List.mem_filter.mpr ⟨hxl, by simp [hpx]⟩
  · intro x hx
    simp only [removeAndFreeAllMatching, removeAllMatching] at hx
    have := List.mem_filter.mp hx
    exact ⟨this.1, by simpa using this.2⟩

/-- Witness for C8: in the list `[4, 7, 7]` with key 7, the non-matching
element 4 is kept. -/
theorem removeAndFreeAllMatching_spec_witness :
    (4 : Nat) ∈ (removeAndFreeAllMatching (fun e => e == 7) [4, 7, 7]).1 :=
  (removeAndFreeAllMatching_spec.1 Nat (fun e => e == 7) [4, 7, 7]).2.1 4 (by decide) (by decide)

end OtOwningList

namespace OtTimer

/-- A pending entry of the scheduler's intrusive list: the identity of a
`Timer` object together with its `mFireTime` field. -/
structure Ent where
  id : Nat
  fireTime : Nat
  deriving DecidableEq, Repr

/-- The value of a timer's intrusive `mNext` field: either the timer's own
self-reference sentinel (`mNext == this`), or a pointer to the next timer in
the scheduler's list (`none` models `nullptr` at the tail). -/
inductive Link where
  | self : Link
  | ptr : Option Nat → Link
  deriving DecidableEq, Repr

/-- A timer scheduler of one clock resolution: the current time reported by
the bound alarm capability, the sorted pending list (`mTimerList`), the
`mNext` values of timers that are not linked in the list, and the armed alarm
time (`none` when the alarm is disarmed). -/
structure Sched where
  now : Nat
  chain : List Ent
  offNext : Nat → Link
  alarm : Option Nat

/-- The ids of the timers currently linked in a pending list. -/
def ids (l : List Ent) : List Nat := l.map Ent.id

/-- The id of the entry following the entry of timer `i` in the list, if any. -/
def succIn (l : List Ent) (i : Nat) : Option Nat :=
  match l with
  | [] => none
  | e :: rest => if e.id = i then rest.head?.map Ent.id else succIn rest i

/-- The value of timer `i`'s intrusive `mNext` field: the next entry (or null
at the tail) while linked, and the stored off-list value otherwise. -/
def mNextOf (st : Sched) (i : Nat) : Link :=
  if i ∈ ids st.chain then Link.ptr (succIn st.chain i) else st.offNext i

/-- From `timer.hpp`: `IsRunning() { return (mNext != this); }`. -/
def isRunningT (st : Sched) (i : Nat) : Prop := mNextOf st i ≠ Link.self

instance (st : Sched) (i : Nat) : Decidable (isRunningT st i) :=
  inferInstanceAs (Decidable (mNextOf st i ≠ Link.self))

/-- The `mFireTime` field of timer `i` as recorded in the pending list (only
running timers have a meaningful fire time). -/
def fireTimeOf (st : Sched) (i : Nat) : Option Nat :=
  (st.chain.find? (fun e => e.id == i)).map Ent.fireTime

/-- Modelled from the spec: `Timer::Scheduler::SetAlarm` (body in `timer.cpp`,
not in the excerpt): the hardware alarm is armed for exactly the head timer's
fire time, and disarmed when the list is empty. -/
def setAlarmT (st : Sched) : Sched :=
  { st with alarm := st.chain.head?.map Ent.fireTime }

/-- Modelled from the spec: `Timer::Scheduler::Remove` (body in `timer.cpp`,
not in the excerpt): if the timer is not running, do nothing; otherwise unlink
it (reprogramming the alarm when the removed entry was the head) and set its
`mNext` back to the self sentinel. -/
def removeT (st : Sched) (i : Nat) : Sched :=
  if isRunningT st i then
    let wasHead := st.chain.head?.map Ent.id = some i
    let st1 : Sched :=
      { st with chain := st.chain.eraseP (fun e => e.id == i),
                offNext := fun j => if j = i then Link.self else st.offNext j }
    if wasHead then setAlarmT st1 else st1
  else st

instance (l : List Ent) (i : Nat) : Decidable (l.head?.map Ent.id = some i) :=
  inferInstanceAs (Decidable (_ = _))

/-- Modelled from the spec: the insertion loop of `Timer::Scheduler::Add`
(body in `timer.cpp`, not in the excerpt): walk the list and link the new
entry right before the first entry it fires strictly before (so a new entry
goes after existing equal-time entries). -/
def insertTimer (now : Nat) (e : Ent) (l : List Ent) : List Ent :=
  match l with
  | [] => [e]
  | c :: rest =>
      if fireBefore now e.fireTime c.fireTime then e :: c :: rest
      else c :: insertTimer now e rest

/-- Whether a new entry with fire time `t` would become the head of list `l`:
the list is empty, or the new entry fires strictly before the current head
(the `prev == nullptr` case of `Timer::Scheduler::Add`). -/
def becomesHead (now t : Nat) (l : List Ent) : Prop :=
  match l with
  | [] => True
  | c :: _ => fireBefore now t c.fireTime

instance (now t : Nat) (l : List Ent) : Decidable (becomesHead now t l) :=
  match l with
  | [] => isTrue trivial
  | c :: _ => inferInstanceAs (Decidable (fireBefore now t c.fireTime))

/-- Modelled from the spec: `Timer::Scheduler::Add` (body in `timer.cpp`, not
in the excerpt): remove the timer if it is already linked, set its fire time,
insert it at the sorted position, and reprogram the alarm when the new entry
became the head. -/
def addT (st : Sched) (i t : Nat) : Sched :=
  let st1 := removeT st i
  let st2 : Sched := { st1 with chain := insertTimer st1.now ⟨i, t⟩ st1.chain }
  if becomesHead st1.now t st1.chain then setAlarmT st2 else st2

/-- The public timer operations of `TimerMilli` (`timer.hpp`), identified by
the timer they act on. -/
inductive Op where
  | start : Nat → Nat → Op
  | startAt : Nat → Nat → Nat → Op
  | fireAt : Nat → Nat → Op
  | fireAtIfEarlier : Nat → Nat → Op
  | stop : Nat → Op

/-- One public timer operation on the scheduler state.  `Start(delay)` fires
`delay` ticks from now and `StartAt(base, delay)` fires `delay` ticks after
`base`, both with wrapping 32-bit addition; `FireAt(t)` schedules at an
absolute time; `FireAtIfEarlier(t)` schedules only when the timer is not
running or its current fire time is strictly later than `t` (from the
`timer.hpp` contract; bodies in `timer.cpp` are not in the excerpt); `Stop()`
unlinks a running timer. -/
def stepOp (st : Sched) : Op → Sched
  | .start i d => addT st i ((st.now + d) % timeWidth)
  | .startAt i base d => addT st i ((base + d) % timeWidth)
  | .fireAt i t => addT st i t
  | .fireAtIfEarlier i t =>
      if isRunningT st i then
        match fireTimeOf st i with
        | some t1 => if serialLt t t1 then addT st i t else st
        | none => st
      else addT st i t
  | .stop i => removeT st i

/-- A scheduler with an empty pending list: no timer is linked, every timer's
`mNext` is its self sentinel (the constructor `Timer(...) : mNext(this)` in
`timer.hpp`), and the alarm is disarmed. -/
def Sched.init (now : Nat) : Sched :=
  { now := now, chain := [], offNext := fun _ => Link.self, alarm := none }

/-- Apply a sequence of public timer operations in order. -/
def applyOps (st : Sched) : List Op → Sched
  | [] => st
  | op :: rest => applyOps (stepOp st op) rest

/-- The pending list is in non-decreasing fire-time order under the wraparound
comparator relative to `now`. -/
def SortedChain (now : Nat) (l : List Ent) : Prop :=
  List.Pairwise (fun a b => signedOffset now a.fireTime ≤ signedOffset now b.fireTime) l

@[simp] theorem setAlarmT_now (st : Sched) : (setAlarmT st).now = st.now := rfl

@[simp] theorem setAlarmT_chain (st : Sched) : (setAlarmT st).chain = st.chain := rfl

@[simp] theorem setAlarmT_offNext (st : Sched) : (setAlarmT st).offNext = st.offNext := rfl

theorem removeT_now (st : Sched) (i : Nat) : (removeT st i).now = st.now := by
  simp only [removeT]
  split
  · split <;> rfl
  · rfl

theorem removeT_id (st : Sched) (i : Nat) (h : ¬ isRunningT st i) : removeT st i = st := by
  simp only [removeT, if_neg h]

theorem removeT_chain_run (st : Sched) (i : Nat) (h : isRunningT st i) :
    (removeT st i).chain = st.chain.eraseP (fun e => e.id == i) := by
  simp only [removeT, if_pos h]
  split <;> rfl

theorem removeT_offNext_run (st : Sched) (i : Nat) (h : isRunningT st i) :
    (removeT st i).offNext = fun j => if j = i then Link.self else st.offNext j := by
  simp only [removeT, if_pos h]
  split <;> rfl

theorem addT_now (st : Sched) (i t : Nat) : (addT st i t).now = st.now := by
  simp only [addT]
  split
  · simp [removeT_now]
  · simp [removeT_now]

theorem addT_chain (st : Sched) (i t : Nat) :
    (addT st i t).chain = insertTimer st.now ⟨i, t⟩ (removeT st i).chain := by
  simp only [addT]
  split
  · simp [removeT_now]
  · simp [removeT_now]

theorem addT_offNext (st : Sched) (i t : Nat) :
    (addT st i t).offNext = (removeT st i).offNext := by
  simp only [addT]
  split
  · rfl
  · rfl

theorem isRunningT_of_mem (st : Sched) (i : Nat) (h : i ∈ ids st.chain) : isRunningT st i := by
  simp [isRunningT, mNextOf, h]

theorem not_mem_of_not_running (st : Sched) (i : Nat) (h : ¬ isRunningT st i) :
    ¬ i ∈ ids st.chain :=
  fun hm => h (isRunningT_of_mem st i hm)

theorem mem_insertTimer_iff (now : Nat) (e x : Ent) (l : List Ent) :
    x ∈ insertTimer now e l ↔ x = e ∨ x ∈ l := by
  induction l with
  | nil => simp [insertTimer]
  | cons c rest ih =>
      simp only [insertTimer]
      split
      · simp [or_comm, or_assoc, or_left_comm]
      · simp only [List.mem_cons, ih]
        tauto

theorem mem_ids_insertTimer_iff (now : Nat) (e : Ent) (j : Nat) (l : List Ent) :
    j ∈ ids (insertTimer now e l) ↔ j = e.id ∨ j ∈ ids l := by
  simp only [ids, List.mem_map]
  constructor
  · rintro ⟨x, hx, rfl⟩
    rcases (mem_insertTimer_iff now e x l).mp hx with rfl | hxl
    · exact Or.inl rfl
    · exact Or.inr ⟨x, hxl, rfl⟩
  · rintro (rfl | ⟨x, hxl, rfl⟩)
    · exact ⟨e, (mem_insertTimer_iff now e e l).mpr (Or.inl rfl), rfl⟩
    · exact ⟨x, (mem_insertTimer_iff now e x l).mpr (Or.inr hxl), rfl⟩

theorem not_mem_ids_eraseP (l : List Ent) (i : Nat) (h : (ids l).Nodup) :
    ¬ i ∈ ids (l.eraseP (fun e => e.id == i)) := by
  induction l with
  | nil => simp [ids]
  | cons e rest ih =>
      by_cases he : e.id = i
      · have : (e :: rest).eraseP (fun e => e.id == i) = rest := by
          simp [List.eraseP_cons, he]
        rw [this]
        have : ¬ e.id ∈ ids rest := by
          have := h
          simp only [ids, List.map_cons, List.nodup_cons] at this
          exact this.1
        rw [← he]
        exact this
      · have : (e :: rest).eraseP (fun e => e.id == i)
            = e :: rest.eraseP (fun e => e.id == i) := by
          simp [List.eraseP_cons, he]
        rw [this]
        simp only [ids, List.map_cons, List.mem_cons]
        rintro (rfl | hmem)
        · exact he rfl
        · exact ih (by
            have := h
            simp only [ids, List.map_cons, List.nodup_cons] at this
            exact this.2) hmem

theorem mem_ids_eraseP_of_ne (l : List Ent) (i j : Nat) (hj : j ≠ i)
    (h : j ∈ ids l) : j ∈ ids (l.eraseP (fun e => e.id == i)) := by
  induction l with
  | nil => simp [ids] at h
  | cons e rest ih =>
      by_cases he : e.id = i
      · have herase : (e :: rest).eraseP (fun e => e.id == i) = rest := by
          simp [List.eraseP_cons, he]
        rw [herase]
        simp only [ids, List.map_cons, List.mem_cons] at h
        rcases h with rfl | h
        · exact absurd he hj
        · exact h
      · have herase : (e :: rest).eraseP (fun e => e.id == i)
            = e :: rest.eraseP (fun e => e.id == i) := by
          simp [List.eraseP_cons, he]
        rw [herase]
        simp only [ids, List.map_cons, List.mem_cons] at h ⊢
        rcases h with rfl | h
        · exact Or.inl rfl
        · exact Or.inr (ih h)

theorem ids_eraseP_sublist (l : List Ent) (p : Ent → Bool) :
    List.Sublist (ids (l.eraseP p)) (ids l) :=
  (List.eraseP_sublist l).map Ent.id

theorem nodup_ids_insertTimer (now : Nat) (e : Ent) (l : List Ent)
    (h : (ids l).Nodup) (hi : ¬ e.id ∈ ids l) : (ids (insertTimer now e l)).Nodup := by
  induction l with
  | nil => simp [insertTimer, ids]
  | cons c rest ih =>
      simp only [ids, List.map_cons, List.mem_cons, not_or] at hi
      simp only [ids, List.map_cons, List.nodup_cons] at h
      simp only [insertTimer]
      split
      · simp only [ids, List.map_cons, List.nodup_cons, List.mem_cons, not_or]
        exact ⟨⟨fun hec => hi.1 hec, hi.2⟩, h.1, h.2⟩
      · simp only [ids, List.map_cons, List.nodup_cons]
        refine ⟨?_, ih h.2 hi.2⟩
        intro hmem
        have : c.id = e.id ∨ c.id ∈ ids rest :=
          (mem_ids_insertTimer_iff now e c.id rest).mp hmem
        rcases this with hce | hmem2
        · exact hi.1 hce.symm
        · exact h.1 hmem2

theorem sortedChain_eraseP (now : Nat) (l : List Ent) (p : Ent → Bool)
    (h : SortedChain now l) : SortedChain now (l.eraseP p) :=
  List.Pairwise.sublist (List.eraseP_sublist l) h

theorem sortedChain_insertTimer (now : Nat) (e : Ent) (l : List Ent)
    (h : SortedChain now l) : SortedChain now (insertTimer now e l) := by
  induction l with
  | nil => simp [insertTimer, SortedChain]
  | cons c rest ih =>
      simp only [SortedChain, List.pairwise_cons] at h
      simp only [insertTimer]
      split
      · rename_i hlt
        have hec : signedOffset now e.fireTime ≤ signedOffset now c.fireTime :=
          le_of_lt hlt
        simp only [SortedChain, List.pairwise_cons]
        refine ⟨?_, h.1, h.2⟩
        intro x hx
        rcases List.mem_cons.mp hx with rfl | hxr
        · exact hec
        · exact le_trans hec (h.1 x hxr)
      · rename_i hnlt
        have hce : signedOffset now c.fireTime ≤ signedOffset now e.fireTime :=
          le_of_not_lt hnlt
        simp only [SortedChain, List.pairwise_cons]
        refine ⟨?_, ih h.2⟩
        intro x hx
        rcases (mem_insertTimer_iff now e x rest).mp hx with rfl | hxr
        · exact hce
        · exact h.1 x hxr

theorem find?_insertTimer (now i t : Nat) (l : List Ent) (hi : ¬ i ∈ ids l) :
    List.find? (fun e => e.id == i) (insertTimer now ⟨i, t⟩ l) = some ⟨i, t⟩ := by
  induction l with
  | nil => simp [insertTimer]
  | cons c rest ih =>
      simp only [ids, List.map_cons, List.mem_cons] at hi
      push_neg at hi
      simp only [insertTimer]
      split
      · simp
      · have hci : (c.id == i) = false := by
          simp only [beq_eq_false_iff_ne, ne_eq]
          exact fun hc => hi.1 hc.symm
        simp only [List.find?_cons, hci]
        exact ih (by
          intro hm
          exact absurd hm (by
            simp only [ids] at hi ⊢
            exact hi.2))

theorem mem_of_fireTimeOf_some (st : Sched) (i t1 : Nat)
    (h : fireTimeOf st i = some t1) : i ∈ ids st.chain := by
  simp only [fireTimeOf, Option.map_eq_some'] at h
  obtain ⟨e, he, _⟩ := h
  have hmem := List.mem_of_find?_eq_some he
  have hid := List.find?_some he
  simp only [beq_iff_eq] at hid
  simp only [ids, List.mem_map]
  exact ⟨e, hmem, hid⟩

/-- The invariant of reachable scheduler states: linked timers have distinct
identities, every unlinked timer's `mNext` is the self sentinel, and the
pending list is sorted relative to `now`. -/
def Inv (st : Sched) : Prop :=
  (ids st.chain).Nodup
  ∧ (∀ j, ¬ j ∈ ids st.chain → st.offNext j = Link.self)
  ∧ SortedChain st.now st.chain

theorem inv_init (now : Nat) : Inv (Sched.init now) := by
  refine ⟨by simp [Sched.init, ids], fun j _ => rfl, by simp [Sched.init, SortedChain, ids]⟩

theorem inv_removeT (st : Sched) (i : Nat) (h : Inv st) : Inv (removeT st i) := by
  by_cases hr : isRunningT st i
  · obtain ⟨hnd, hoff, hsort⟩ := h
    refine ⟨?_, ?_, ?_⟩
    · rw [removeT_chain_run st i hr]
      exact List.Nodup.sublist (ids_eraseP_sublist st.chain _) hnd
    · intro j hj
      rw [removeT_chain_run st i hr] at hj
      rw [removeT_offNext_run st i hr]
      by_cases hji : j = i
      · simp [hji]
      · simp only [if_neg hji]
        refine hoff j ?_
        intro hmem
        exact hj (mem_ids_eraseP_of_ne st.chain i j hji hmem)
    · rw [removeT_chain_run st i hr, removeT_now]
      exact sortedChain_eraseP st.now st.chain _ hsort
  · rw [removeT_id st i hr]
    exact h

theorem not_mem_ids_removeT (st : Sched) (i : Nat) (hnd : (ids st.chain).Nodup) :
    ¬ i ∈ ids (removeT st i).chain := by
  by_cases hr : isRunningT st i
  · rw [removeT_chain_run st i hr]
    exact not_mem_ids_eraseP st.chain i hnd
  · rw [removeT_id st i hr]
    exact not_mem_of_not_running st i hr

theorem inv_addT (st : Sched) (i t : Nat) (h : Inv st) : Inv (addT st i t) := by
  have h1 : Inv (removeT st i) := inv_removeT st i h
  obtain ⟨hnd1, hoff1, hsort1⟩ := h1
  have hni : ¬ i ∈ ids (removeT st i).chain := not_mem_ids_removeT st i h.1
  refine ⟨?_, ?_, ?_⟩
  · rw [addT_chain]
    exact nodup_ids_insertTimer st.now ⟨i, t⟩ (removeT st i).chain hnd1 hni
  · intro j hj
    rw [addT_chain] at hj
    rw [addT_offNext]
    refine hoff1 j ?_
    intro hmem
    exact hj ((mem_ids_insertTimer_iff st.now ⟨i, t⟩ j (removeT st i).chain).mpr (Or.inr hmem))
  · rw [addT_chain, addT_now]
    have := sortedChain_insertTimer st.now ⟨i, t⟩ (removeT st i).chain
    rw [removeT_now] at hsort1
    exact this hsort1

theorem inv_stepOp (st : Sched) (op : Op) (h : Inv st) : Inv (stepOp st op) := by
  cases op with
  | start i d => exact inv_addT st i _ h
  | startAt i base d => exact inv_addT st i _ h
  | fireAt i t => exact inv_addT st i _ h
  | fireAtIfEarlier i t =>
      simp only [stepOp]
      split
      · split
        · split
          · exact inv_addT st i _ h
          · exact h
        · exact h
      · exact inv_addT st i _ h
  | stop i => exact inv_removeT st i h

theorem inv_applyOps (st : Sched) (ops : List Op) (h : Inv st) : Inv (applyOps st ops) := by
  induction ops generalizing st with
  | nil => exact h
  | cons op rest ih => exact ih (stepOp st op) (inv_stepOp st op h)

theorem insertTimer_position (now : Nat) (e : Ent) (l : List Ent) :
    ∃ p, p ≤ l.length
      ∧ insertTimer now e l = l.take p ++ e :: l.drop p
      ∧ (∀ x, x ∈ l.take p → ¬ fireBefore now e.fireTime x.fireTime)
      ∧ (∀ x, (l.drop p).head? = some x → fireBefore now e.fireTime x.fireTime) := by
  induction l with
  | nil =>
      refine ⟨0, by simp, by simp [insertTimer], by simp, by simp⟩
  | cons c rest ih =>
      by_cases h : fireBefore now e.fireTime c.fireTime
      · refine ⟨0, by simp, by simp [insertTimer, h], by simp, ?_⟩
        intro x hx
        simp only [List.drop_zero, List.head?_cons, Option.some.injEq] at hx
        rw [← hx]
        exact h
      · obtain ⟨p, hp, heq, hbefore, hat⟩ := ih
        refine ⟨p + 1, by simpa using hp, ?_, ?_, ?_⟩
        · simp [insertTimer, h, heq]
        · intro x hx
          simp only [List.take_succ_cons, List.mem_cons] at hx
          rcases hx with rfl | hx
          · exact h
          · exact hbefore x hx
        · intro x hx
          simp only [List.drop_succ_cons] at hx
          exact hat x hx

/-- C1: after any sequence of Start/StartAt/FireAt/FireAtIfEarlier/Stop
operations from an empty pending list, the pending timer list is in
non-decreasing fire-time order under the wraparound comparator relative to the
scheduler's current now; and the insertion step links a new entry at the first
position whose occupant's fire time is not earlier than every entry it was
placed after — precisely, every entry before the insertion point does not fire
strictly after the new entry (so the new entry goes after existing equal-time
entries, keeping ties stable) and the occupant at the insertion point, if any,
fires strictly after the new entry. -/
theorem scheduler_sorted_and_stable_insert :
    (∀ (now : Nat) (ops : List Op),
      SortedChain (applyOps (Sched.init now) ops).now (applyOps (Sched.init now) ops).chain)
    ∧ (∀ (now : Nat) (e : Ent) (l : List Ent), ∃ p, p ≤ l.length
        ∧ insertTimer now e l = l.take p ++ e :: l.drop p
        ∧ (∀ x, x ∈ l.take p → ¬ fireBefore now e.fireTime x.fireTime)
        ∧ (∀ x, (l.drop p).head? = some x → fireBefore now e.fireTime x.fireTime)) := by
  constructor
  · intro now ops
    exact (inv_applyOps (Sched.init now) ops (inv_init now)).2.2
  · intro now e l
    exact insertTimer_position now e l

/-- Witness for C1: the scheduler reached by firing timers 1, 2, 3 at times
100, 50, 200 from an empty list at now 0 has a sorted pending list. -/
theorem scheduler_sorted_and_stable_insert_witness :
    SortedChain (applyOps (Sched.init 0) [Op.fireAt 1 100, Op.fireAt 2 50, Op.fireAt 3 200]).now
      (applyOps (Sched.init 0) [Op.fireAt 1 100, Op.fireAt 2 50, Op.fireAt 3 200]).chain :=
  scheduler_sorted_and_stable_insert.1 0 [Op.fireAt 1 100, Op.fireAt 2 50, Op.fireAt 3 200]

/-- C3: in any reachable scheduler state, `FireAtIfEarlier(t2)` reschedules the
timer to fire time `t2` exactly when the timer is not running or its current
fire time `t1` is strictly later than `t2` under the wraparound comparator
(`t2` earlier than `t1`); otherwise it leaves the whole state unchanged, so
with `t2` later than or equal to `t1` the fire time stays `t1`. -/
theorem fireAtIfEarlier_spec :
    ∀ (now : Nat) (ops : List Op) (i t2 : Nat),
      (¬ isRunningT (applyOps (Sched.init now) ops) i →
        fireTimeOf (stepOp (applyOps (Sched.init now) ops) (Op.fireAtIfEarlier i t2)) i
          = some t2)
      ∧ (∀ t1, fireTimeOf (applyOps (Sched.init now) ops) i = some t1 → serialLt t2 t1 →
          fireTimeOf (stepOp (applyOps (Sched.init now) ops) (Op.fireAtIfEarlier i t2)) i
            = some t2)
      ∧ (∀ t1, fireTimeOf (applyOps (Sched.init now) ops) i = some t1 → ¬ serialLt t2 t1 →
          stepOp (applyOps (Sched.init now) ops) (Op.fireAtIfEarlier i t2)
            = applyOps (Sched.init now) ops) := by
  intro now ops i t2
  have hInv := inv_applyOps (Sched.init now) ops (inv_init now)
  refine ⟨?_, ?_, ?_⟩
  · intro hnr
    simp only [stepOp, if_neg hnr]
    unfold fireTimeOf
    rw [addT_chain,
      find?_insertTimer _ i t2 _ (not_mem_ids_removeT _ i hInv.1)]
    rfl
  · intro t1 h1 hlt
    have hr := isRunningT_of_mem _ i (mem_of_fireTimeOf_some _ i t1 h1)
    simp only [stepOp, if_pos hr, h1, if_pos hlt]
    unfold fireTimeOf
    rw [addT_chain,
      find?_insertTimer _ i t2 _ (not_mem_ids_removeT _ i hInv.1)]
    rfl
  · intro t1 h1 hlt
    have hr := isRunningT_of_mem _ i (mem_of_fireTimeOf_some _ i t1 h1)
    simp only [stepOp, if_pos hr, h1, if_neg hlt]

/-- Witness for C3: a timer running with fire time 100 rescheduled by
`FireAtIfEarlier(50)` fires at 50. -/
theorem fireAtIfEarlier_spec_witness :
    fireTimeOf (stepOp (applyOps (Sched.init 0) [Op.fireAt 1 100]) (Op.fireAtIfEarlier 1 50)) 1
      = some 50 :=
  (fireAtIfEarlier_spec 0 [Op.fireAt 1 100] 1 50).2.1 100 (by decide) (by decide)

/-- C4: in every reachable scheduler state, `IsRunning()` returns true exactly
when the timer's intrusive next-link holds a value other than its own
self-reference sentinel; moreover that pointer test coincides with the timer
being linked in the scheduler's pending list. -/
theorem isRunning_iff_next_not_self :
    ∀ (now : Nat) (ops : List Op) (i : Nat),
      (isRunningT (applyOps (Sched.init now) ops) i
        ↔ mNextOf (applyOps (Sched.init now) ops) i ≠ Link.self)
      ∧ (isRunningT (applyOps (Sched.init now) ops) i
        ↔ i ∈ ids (applyOps (Sched.init now) ops).chain) := by
  intro now ops i
  have hInv := inv_applyOps (Sched.init now) ops (inv_init now)
  refine ⟨Iff.rfl, ?_, isRunningT_of_mem _ i⟩
  intro hr
  by_contra hmem
  apply hr
  show mNextOf (applyOps (Sched.init now) ops) i = Link.self
  unfold mNextOf
  rw [if_neg hmem]
  exact hInv.2.1 i hmem

/-- Witness for C4: in the state reached by starting timer 1 for 10 ticks, the
pointer test agrees with membership in the pending list. -/
theorem isRunning_iff_next_not_self_witness :
    isRunningT (applyOps (Sched.init 0) [Op.start 1 10]) 1
      ↔ 1 ∈ ids (applyOps (Sched.init 0) [Op.start 1 10]).chain :=
  (isRunning_iff_next_not_self 0 [Op.start 1 10] 1).2

/-- C9: in every reachable scheduler state, `Stop()` is idempotent: it unlinks
the timer when running and is a no-op otherwise, so stopping twice leaves the
same state — timer next-links, pending list and armed alarm included — as
stopping once. -/
theorem stop_idempotent :
    ∀ (now : Nat) (ops : List Op) (i : Nat),
      stepOp (stepOp (applyOps (Sched.init now) ops) (Op.stop i)) (Op.stop i)
        = stepOp (applyOps (Sched.init now) ops) (Op.stop i) := by
  intro now ops i
  have hInv := inv_applyOps (Sched.init now) ops (inv_init now)
  simp only [stepOp]
  apply removeT_id
  by_cases hr : isRunningT (applyOps (Sched.init now) ops) i
  · have hmem := not_mem_ids_removeT (applyOps (Sched.init now) ops) i hInv.1
    unfold isRunningT mNextOf
    rw [if_neg hmem, removeT_offNext_run _ i hr]
    simp
  · rw [removeT_id _ i hr]
    exact hr

/-- Witness for C9: stopping timer 1 twice after starting it equals stopping
it once. -/
theorem stop_idempotent_witness :
    stepOp (stepOp (applyOps (Sched.init 0) [Op.start 1 10]) (Op.stop 1)) (Op.stop 1)
      = stepOp (applyOps (Sched.init 0) [Op.start 1 10]) (Op.stop 1) :=
  stop_idempotent 0 [Op.start 1 10] 1

/-- C10: in a freshly initialized scheduler — before any Start/StartAt/FireAt
call — every timer's next-link is its own self-reference sentinel, exactly as
set by the `Timer` constructor (`mNext(this)`, inherited by `TimerMilli`,
`TimerMicro` and `TimerMilliContext`), so `IsRunning()` returns false. -/
theorem new_timer_not_running :
    ∀ (now i : Nat),
      mNextOf (Sched.init now) i = Link.self ∧ ¬ isRunningT (Sched.init now) i := by
  intro now i
  constructor
  · unfold mNextOf
    rw [if_neg (by simp [Sched.init, ids])]
    rfl
  · intro hr
    apply hr
    unfold mNextOf
    rw [if_neg (by simp [Sched.init, ids])]
    rfl

/-- Witness for C10: timer 7 is not running in a fresh scheduler at now 0. -/
theorem new_timer_not_running_witness : ¬ isRunningT (Sched.init 0) 7 :=
  (new_timer_not_running 0 7).2

end OtTimer
